import Mathlib

/-!
Verification of the mgf repository's stable-handle `Pool` (src/pool.rs) and of
the demo `World::step` orchestrator (mgf_demo/world.rs).

The `Pool` embedding translates pool.rs directly: the `Vec<PoolEntry<T>>` is a
`List (PoolEntry T)`; operations that can panic in Rust return `Option`/`Except`
results, and `Pool.remove` additionally returns the pool state as mutated up to
the panic point (the Rust code links the free list before checking occupancy).
-/

namespace Mgf

/-- Internal storage type used by Pool (pool.rs `PoolEntry<T>`). -/
inductive PoolEntry (T : Type) where
  | FreeListEnd
  | FreeListPtr (next_free : Nat)
  | Occupied (item : T)
deriving DecidableEq

/-- Whether a pool entry is the `Occupied` variant. -/
def PoolEntry.isOccupied {T : Type} : PoolEntry T → Bool
  | PoolEntry.Occupied _ => true
  | _ => false

/-- Growable array type that allows items to be removed and inserted without
changing the indices of other entries (pool.rs `Pool<T>`: occupied-slot count,
free-list head, entry storage). -/
structure Pool (T : Type) where
  len : Nat
  free_list : Option Nat
  entries : List (PoolEntry T)
deriving DecidableEq

namespace Pool

/-- pool.rs `Pool::new`: empty pool. -/
def new {T : Type} : Pool T :=
  { len := 0, free_list := none, entries := [] }

/-- pool.rs `Pool::with_capacity`: `Vec` capacity is not observable in this
model, so the resulting pool state equals `Pool.new`. -/
def with_capacity {T : Type} (_cap : Nat) : Pool T :=
  { len := 0, free_list := none, entries := [] }

/-- pool.rs `Pool::empty`. -/
def empty {T : Type} (p : Pool T) : Bool :=
  p.len == 0

/-- pool.rs `Pool::clear`. -/
def clear {T : Type} (_p : Pool T) : Pool T :=
  { len := 0, free_list := none, entries := [] }

/-- The free-list node `remove` writes into a vacated slot: points at the old
free-list head, or terminates the list if there was none (pool.rs lines 101-105). -/
def freeNode {T : Type} (fl : Option Nat) : PoolEntry T :=
  match fl with
  | some free_item => PoolEntry.FreeListPtr free_item
  | none => PoolEntry.FreeListEnd

/-- pool.rs `Pool::push`. Returns `none` exactly when the Rust code panics
(free-list head out of range) or hits `unreachable!` (free-list head occupied);
otherwise `some (returned index, new pool state)`. -/
def push {T : Type} (p : Pool T) (item : T) : Option (Nat × Pool T) :=
  match p.free_list with
  | some free_item =>
    match p.entries[free_item]? with
    | some PoolEntry.FreeListEnd =>
        some (free_item,
          { len := p.len + 1, free_list := none,
            entries := p.entries.set free_item (PoolEntry.Occupied item) })
    | some (PoolEntry.FreeListPtr next_free) =>
        some (free_item,
          { len := p.len + 1, free_list := some next_free,
            entries := p.entries.set free_item (PoolEntry.Occupied item) })
    | _ => none
  | none =>
      some (p.entries.length,
        { len := p.len + 1, free_list := none,
          entries := p.entries ++ [PoolEntry.Occupied item] })

/-- pool.rs `Pool::remove`. First component `none` exactly when the Rust code
panics (slot not occupied, or index out of range). The second component is the
pool state at that program point: the free-list head is redirected to `i`
before the occupancy check, and for an in-range `i` the entry has already been
replaced by the new free-list node when the panic fires. -/
def remove {T : Type} (p : Pool T) (i : Nat) : Option T × Pool T :=
  let new_entry : PoolEntry T := freeNode p.free_list
  match p.entries[i]? with
  | some (PoolEntry.Occupied item) =>
      (some item,
        { len := p.len - 1, free_list := some i,
          entries := p.entries.set i new_entry })
  | some _ =>
      (none,
        { len := p.len, free_list := some i,
          entries := p.entries.set i new_entry })
  | none =>
      (none, { len := p.len, free_list := some i, entries := p.entries })

/-- pool.rs `Pool::next_free`. -/
def next_free {T : Type} (p : Pool T) : Option Nat :=
  p.free_list

/-- pool.rs `Pool::get`. -/
def get {T : Type} (p : Pool T) (i : Nat) : Option T :=
  match p.entries[i]? with
  | some (PoolEntry.Occupied item) => some item
  | _ => none

/-- pool.rs `Pool::get_mut` (the reference read; mutation through the returned
reference is modelled separately where needed). -/
def get_mut {T : Type} (p : Pool T) (i : Nat) : Option T :=
  match p.entries[i]? with
  | some (PoolEntry.Occupied item) => some item
  | _ => none

/-- pool.rs `Index for Pool<T>`: indexed access, `Except.error` exactly when
the Rust impl panics. -/
def index {T : Type} (p : Pool T) (i : Nat) : Except String T :=
  match p.entries[i]? with
  | some (PoolEntry.Occupied item) => Except.ok item
  | some _ => Except.error "not occupied"
  | none => Except.error "out of bounds"

end Pool

/-- pool.rs `filter_pool`: the filter used by the pool iterator. -/
def filter_pool {T : Type} (x : Nat × PoolEntry T) : Option (Nat × T) :=
  match x with
  | (i, PoolEntry.Occupied item) => some (i, item)
  | _ => none

/-- pool.rs `IntoIterator for &Pool<T>`: the full (finite) iteration sequence,
`entries.iter().enumerate().filter_map(filter_pool)`. -/
def Pool.toList {T : Type} (p : Pool T) : List (Nat × T) :=
  p.entries.enum.filterMap filter_pool

/-! Basic lemmas about the embedded pool operations. -/

theorem getElem?_set_self_of_lt {α : Type} (l : List α) (i : Nat) (a : α)
    (h : i < l.length) : (l.set i a)[i]? = some a := by
  rw [List.getElem?_set_self']
  simp [List.getElem?_eq_getElem h]

theorem freeNode_not_occupied {T : Type} (fl : Option Nat) :
    (Pool.freeNode (T := T) fl).isOccupied = false := by
  cases fl <;> rfl

theorem Pool.remove_of_occupied {T : Type} {p : Pool T} {i : Nat} {v : T}
    (h : p.entries[i]? = some (PoolEntry.Occupied v)) :
    p.remove i = (some v,
      { len := p.len - 1, free_list := some i,
        entries := p.entries.set i (Pool.freeNode p.free_list) }) := by
  simp [Pool.remove, h]

theorem Pool.remove_eq_some {T : Type} {p : Pool T} {i : Nat} {v : T} {p2 : Pool T}
    (h : p.remove i = (some v, p2)) :
    p.entries[i]? = some (PoolEntry.Occupied v) ∧
    p2 = { len := p.len - 1, free_list := some i,
           entries := p.entries.set i (Pool.freeNode p.free_list) } := by
  unfold Pool.remove at h
  rcases he : p.entries[i]? with _ | e
  · rw [he] at h
    simp at h
  · rcases e with _ | nf | w <;> rw [he] at h <;> simp_all

theorem Pool.push_into_free {T : Type} {p : Pool T} {f : Nat} {e : PoolEntry T}
    (hf : p.free_list = some f) (he : p.entries[f]? = some e)
    (hocc : e.isOccupied = false) (v : T) :
    p.push v = some (f,
      { len := p.len + 1,
        free_list := match e with | PoolEntry.FreeListPtr n => some n | _ => none,
        entries := p.entries.set f (PoolEntry.Occupied v) }) := by
  rcases e with _ | nf | w
  · simp [Pool.push, hf, he]
  · simp [Pool.push, hf, he]
  · simp [PoolEntry.isOccupied] at hocc

theorem Pool.push_eq_some_cases {T : Type} {p : Pool T} {v : T} {i : Nat} {p2 : Pool T}
    (h : p.push v = some (i, p2)) :
    p2.len = p.len + 1 ∧
    ((p.free_list = none ∧ i = p.entries.length ∧
        p2.entries = p.entries ++ [PoolEntry.Occupied v]) ∨
     (p.free_list = some i ∧ ∃ e, p.entries[i]? = some e ∧ e.isOccupied = false ∧
        p2.entries = p.entries.set i (PoolEntry.Occupied v))) := by
  rcases hf : p.free_list with _ | f
  · have hp : p.push v = some (p.entries.length,
        { len := p.len + 1, free_list := none,
          entries := p.entries ++ [PoolEntry.Occupied v] }) := by
      simp [Pool.push, hf]
    rw [hp] at h
    obtain ⟨hi, hp2⟩ := Prod.mk.injEq .. ▸ Option.some.inj h
    exact ⟨by rw [← hp2], Or.inl ⟨rfl, hi.symm, by rw [← hp2]⟩⟩
  · rcases he : p.entries[f]? with _ | e
    · have : p.push v = none := by simp [Pool.push, hf, he]
      rw [this] at h
      cases h
    · rcases hocc : e.isOccupied with _ | _
      · have hp := Pool.push_into_free hf he hocc v
        rw [hp] at h
        obtain ⟨hi, hp2⟩ := Prod.mk.injEq .. ▸ Option.some.inj h
        subst hi
        exact ⟨by rw [← hp2], Or.inr ⟨rfl, e, he, hocc, by rw [← hp2]⟩⟩
      · rcases e with _ | nf | w
        · simp [PoolEntry.isOccupied] at hocc
        · simp [PoolEntry.isOccupied] at hocc
        · have : p.push v = none := by simp [Pool.push, hf, he]
          rw [this] at h
          cases h

/-! C3: `remove` fails exactly on unoccupied slots; success returns the value
and links the slot at the head of the free list. -/

/-- C3: for every pool and index, `Pool::remove i` panics (returns no value)
iff slot `i` is not currently occupied; when occupied it returns the stored
value, sets the free-list head to `i`, and writes the free-list node linking
the previous head into slot `i`. -/
theorem remove_fails_iff_unoccupied {T : Type} (p : Pool T) (i : Nat) :
    ((p.remove i).1 = none ↔ p.get i = none) ∧
    (∀ v, p.get i = some v →
      (p.remove i).1 = some v ∧
      (p.remove i).2.free_list = some i ∧
      (p.remove i).2.entries[i]? = some (Pool.freeNode p.free_list) ∧
      (p.remove i).2.len = p.len - 1) := by
  have hget : ∀ v, p.get i = some v ↔ p.entries[i]? = some (PoolEntry.Occupied v) := by
    intro v
    unfold Pool.get
    rcases he : p.entries[i]? with _ | e
    · simp
    · rcases e with _ | nf | w <;> simp
  constructor
  · unfold Pool.remove Pool.get
    rcases he : p.entries[i]? with _ | e
    · simp
    · rcases e with _ | nf | w <;> simp
  · intro v hv
    have he := (hget v).mp hv
    have hlt : i < p.entries.length := (List.getElem?_eq_some.mp he).1
    rw [Pool.remove_of_occupied he]
    refine ⟨rfl, rfl, ?_, rfl⟩
    exact getElem?_set_self_of_lt _ _ _ hlt

/-- Witness for `remove_fails_iff_unoccupied` at a concrete occupied slot. -/
theorem remove_fails_iff_unoccupied_witness :
    (Pool.mk 2 none [PoolEntry.Occupied 7, PoolEntry.Occupied 9] : Pool Nat).get 1 = some 9 ∧
    ((Pool.mk 2 none [PoolEntry.Occupied 7, PoolEntry.Occupied 9] : Pool Nat).remove 1).1 = some 9 := by
  have h := (remove_fails_iff_unoccupied
    (Pool.mk 2 none [PoolEntry.Occupied 7, PoolEntry.Occupied 9] : Pool Nat) 1).2 9 (by decide)
  exact ⟨by decide, h.1⟩

/-! C6: `get`/`get_mut` return absence silently; indexed access fails loudly. -/

/-- C6: for every pool and index, `get` and `get_mut` agree, indexed access
fails (returns `Except.error`) exactly when `get` returns nothing, and on an
occupied slot all three return the stored value. -/
theorem get_silent_index_loud {T : Type} (p : Pool T) (i : Nat) :
    p.get_mut i = p.get i ∧
    (p.index i).toOption = p.get i ∧
    (∀ v, p.get i = some v → p.index i = Except.ok v ∧ p.get_mut i = some v) ∧
    (p.get i = none → ∃ e, p.index i = Except.error e) := by
  unfold Pool.get Pool.get_mut Pool.index
  rcases he : p.entries[i]? with _ | e
  · exact ⟨rfl, rfl, by simp, fun _ => ⟨_, rfl⟩⟩
  · rcases e with _ | nf | w
    · exact ⟨rfl, rfl, by simp, fun _ => ⟨_, rfl⟩⟩
    · exact ⟨rfl, rfl, by simp, fun _ => ⟨_, rfl⟩⟩
    · exact ⟨rfl, rfl, by simp, by simp⟩

/-- Witness for `get_silent_index_loud` at a concrete pool: slot 0 occupied,
slot 1 removed, slot 2 out of range. -/
theorem get_silent_index_loud_witness :
    (Pool.mk 1 (some 1) [PoolEntry.Occupied 4, PoolEntry.FreeListEnd] : Pool Nat).index 0 =
      Except.ok 4 ∧
    ∃ e, (Pool.mk 1 (some 1) [PoolEntry.Occupied 4, PoolEntry.FreeListEnd] : Pool Nat).index 1 =
      Except.error e := by
  have h0 := get_silent_index_loud
    (Pool.mk 1 (some 1) [PoolEntry.Occupied 4, PoolEntry.FreeListEnd] : Pool Nat) 0
  have h1 := get_silent_index_loud
    (Pool.mk 1 (some 1) [PoolEntry.Occupied 4, PoolEntry.FreeListEnd] : Pool Nat) 1
  exact ⟨(h0.2.2.1 4 (by decide)).1, h1.2.2.2 (by decide)⟩

/-! C10: `remove` mutates the pool before its occupancy check, so a failing
`remove` leaves the free list already redirected. -/

/-- C10: for every pool and in-range free (unoccupied) index `i`, `remove i`
fails, yet at the panic point the free-list head has been set to `i` and the
entry at `i` has been overwritten with a fresh free-list node; `len` is
unchanged. In particular removing the current free-list head twice leaves a
self-referential free-list entry at `i`. -/
theorem remove_not_atomic_on_panic {T : Type} (p : Pool T) (i : Nat)
    (hi : i < p.entries.length)
    (hfree : (p.entries.get ⟨i, hi⟩).isOccupied = false) :
    (p.remove i).1 = none ∧
    (p.remove i).2.free_list = some i ∧
    (p.remove i).2.entries[i]? = some (Pool.freeNode p.free_list) ∧
    (p.remove i).2.len = p.len ∧
    (p.free_list = some i →
      (p.remove i).2.entries[i]? = some (PoolEntry.FreeListPtr i)) := by
  have he : p.entries[i]? = some (p.entries.get ⟨i, hi⟩) := by
    simp [List.getElem?_eq_getElem hi]
  have hset : ∀ a : PoolEntry T, (p.entries.set i a)[i]? = some a := fun a =>
    getElem?_set_self_of_lt _ _ _ hi
  have hrm : p.remove i = (none,
      { len := p.len, free_list := some i,
        entries := p.entries.set i (Pool.freeNode p.free_list) }) := by
    rcases hcase : p.entries.get ⟨i, hi⟩ with _ | nf | w
    · rw [hcase] at he
      simp [Pool.remove, he]
    · rw [hcase] at he
      simp [Pool.remove, he]
    · rw [hcase] at hfree
      simp [PoolEntry.isOccupied] at hfree
  rw [hrm]
  refine ⟨rfl, rfl, hset _, rfl, ?_⟩
  intro hfl
  rw [hfl]
  exact hset _

/-- Witness for `remove_not_atomic_on_panic`: removing the current free-list
head of a concrete pool fails and creates a self-referential free entry. -/
theorem remove_not_atomic_on_panic_witness :
    ((Pool.mk 0 (some 0) [PoolEntry.FreeListEnd] : Pool Nat).remove 0).1 = none ∧
    ((Pool.mk 0 (some 0) [PoolEntry.FreeListEnd] : Pool Nat).remove 0).2.entries[0]? =
      some (PoolEntry.FreeListPtr 0) := by
  have h := remove_not_atomic_on_panic (Pool.mk 0 (some 0) [PoolEntry.FreeListEnd] : Pool Nat) 0
    (by decide) (by decide)
  exact ⟨h.1, h.2.2.2.2 rfl⟩

/-! C2: pushing prefers the most recently freed slot (LIFO free list). -/

/-- C2: a successful `push` returns the free-list head when one exists and
otherwise appends a fresh slot; consequently removing an occupied handle `h`
and immediately pushing returns `h` again with the new value stored at `h`,
without growing the underlying storage. -/
theorem push_reuses_lifo {T : Type} (p : Pool T) (v : T) :
    (∀ f i p2, p.free_list = some f → p.push v = some (i, p2) → i = f) ∧
    (p.free_list = none →
      p.push v = some (p.entries.length,
        { len := p.len + 1, free_list := none,
          entries := p.entries ++ [PoolEntry.Occupied v] })) ∧
    (∀ h w, p.get h = some w →
      (p.remove h).1 = some w ∧
      ∃ p2, ((p.remove h).2).push v = some (h, p2) ∧ p2.get h = some v ∧
        p2.entries.length = p.entries.length) := by
  refine ⟨?_, ?_, ?_⟩
  · intro f i p2 hf hp
    rcases (Pool.push_eq_some_cases hp).2 with ⟨hn, _⟩ | ⟨hs, _⟩
    · rw [hf] at hn; cases hn
    · rw [hf] at hs; exact (Option.some_inj.mp hs).symm
  · intro hf
    simp [Pool.push, hf]
  · intro h w hget
    have he : p.entries[h]? = some (PoolEntry.Occupied w) := by
      unfold Pool.get at hget
      rcases he : p.entries[h]? with _ | e
      · rw [he] at hget; cases hget
      · rcases e with _ | nf | u <;> rw [he] at hget <;> simp_all
    have hlt : h < p.entries.length := (List.getElem?_eq_some.mp he).1
    have hrm := Pool.remove_of_occupied he
    have hfst : (p.remove h).1 = some w := by rw [hrm]
    refine ⟨hfst, ?_⟩
    have hlen1 : ((p.remove h).2).entries.length = p.entries.length := by
      rw [hrm]; simp
    have h1lt : h < ((p.remove h).2).entries.length := by rw [hlen1]; exact hlt
    have hfl1 : ((p.remove h).2).free_list = some h := by rw [hrm]
    have hent1 : ((p.remove h).2).entries[h]? = some (Pool.freeNode p.free_list) := by
      rw [hrm]
      exact getElem?_set_self_of_lt _ _ _ hlt
    have hpush := Pool.push_into_free hfl1 hent1 (freeNode_not_occupied _) v
    refine ⟨_, hpush, ?_, ?_⟩
    · unfold Pool.get
      rw [getElem?_set_self_of_lt _ _ _ h1lt]
    · rw [← hlen1]
      simp

/-- Witness for `push_reuses_lifo`: remove handle 0 from a two-slot pool,
push 42, and handle 0 is reissued with 42 stored there. -/
theorem push_reuses_lifo_witness :
    ∃ p2, (((Pool.mk 2 none [PoolEntry.Occupied 7, PoolEntry.Occupied 9] : Pool Nat).remove 0).2).push 42 =
        some (0, p2) ∧ p2.get 0 = some 42 ∧ p2.entries.length = 2 := by
  have h := (push_reuses_lifo
    (Pool.mk 2 none [PoolEntry.Occupied 7, PoolEntry.Occupied 9] : Pool Nat) 42).2.2 0 7 (by decide)
  obtain ⟨p2, h1, h2, h3⟩ := h.2
  exact ⟨p2, h1, h2, h3⟩

/-! C7: `len` counts the occupied slots on every reachable pool. -/

/-- Number of `Occupied` entries in the storage. -/
def countOcc {T : Type} (es : List (PoolEntry T)) : Nat :=
  es.countP (fun e => e.isOccupied)

/-- Pools reachable from `new`/`with_capacity` by successful `push`, successful
`remove` and `clear` operations (a failing `push`/`remove` aborts the Rust
program, so it yields no reachable state). -/
inductive Reachable {T : Type} : Pool T → Prop where
  | new : Reachable Pool.new
  | with_capacity (c : Nat) : Reachable (Pool.with_capacity c)
  | push (p : Pool T) (v : T) (i : Nat) (p2 : Pool T) :
      Reachable p → p.push v = some (i, p2) → Reachable p2
  | remove (p : Pool T) (i : Nat) (v : T) (p2 : Pool T) :
      Reachable p → p.remove i = (some v, p2) → Reachable p2
  | clear (p : Pool T) : Reachable p → Reachable p.clear

theorem PoolEntry.isOccupied_occupied {T : Type} (v : T) :
    (PoolEntry.Occupied v).isOccupied = true := rfl

theorem countOcc_set_of_free {T : Type} :
    ∀ (es : List (PoolEntry T)) (i : Nat) (e : PoolEntry T),
      es[i]? = some e → e.isOccupied = false →
      ∀ v : T, countOcc (es.set i (PoolEntry.Occupied v)) = countOcc es + 1 := by
  intro es
  induction es with
  | nil => intro i e he _ _; simp at he
  | cons a es ih =>
    intro i e he hocc v
    cases i with
    | zero =>
      simp at he
      subst he
      simp [countOcc, List.countP_cons, hocc, PoolEntry.isOccupied_occupied]
    | succ n =>
      simp only [List.getElem?_cons_succ] at he
      simp only [List.set_cons_succ, countOcc, List.countP_cons]
      have := ih n e he hocc v
      simp only [countOcc] at this
      omega

theorem countOcc_set_of_occupied {T : Type} :
    ∀ (es : List (PoolEntry T)) (i : Nat) (v : T),
      es[i]? = some (PoolEntry.Occupied v) →
      ∀ f : PoolEntry T, f.isOccupied = false →
      countOcc es = countOcc (es.set i f) + 1 := by
  intro es
  induction es with
  | nil => intro i v he _ _; simp at he
  | cons a es ih =>
    intro i v he f hf
    cases i with
    | zero =>
      simp at he
      subst he
      simp [countOcc, List.countP_cons, hf, PoolEntry.isOccupied_occupied]
    | succ n =>
      simp only [List.getElem?_cons_succ] at he
      simp only [List.set_cons_succ, countOcc, List.countP_cons]
      have := ih n v he f hf
      simp only [countOcc] at this
      omega

/-- C7: on every pool reachable by `new`/`with_capacity`, `push`, `remove` and
`clear`, `len` equals the number of occupied slots, and `empty` holds exactly
when there is no occupied slot — independently of `entries.length`, which may
be larger because freed slots are retained. -/
theorem len_counts_occupied {T : Type} (p : Pool T) (hr : Reachable p) :
    p.len = countOcc p.entries ∧ (p.empty = true ↔ countOcc p.entries = 0) := by
  have hmain : p.len = countOcc p.entries := by
    induction hr with
    | new => rfl
    | with_capacity c => rfl
    | push q v i q2 _ hpush ih =>
      obtain ⟨hlen, hcases⟩ := Pool.push_eq_some_cases hpush
      rcases hcases with ⟨_, _, hent⟩ | ⟨_, e, he, hocc, hent⟩
      · rw [hlen, hent, ih]
        simp [countOcc, List.countP_append, PoolEntry.isOccupied]
      · rw [hlen, hent, ih, countOcc_set_of_free q.entries i e he hocc v]
    | remove q i v q2 _ hrm ih =>
      obtain ⟨he, hq2⟩ := Pool.remove_eq_some hrm
      have hcnt := countOcc_set_of_occupied q.entries i v he
        (Pool.freeNode q.free_list) (freeNode_not_occupied _)
      rw [hq2]
      simp only
      omega
    | clear q _ _ => rfl
  refine ⟨hmain, ?_⟩
  rw [Pool.empty, ← hmain]
  simp

/-! C1: iteration after a push sequence followed by removal of a subset. -/

/-- Total wrapper of a successful `push` (a failing push aborts the program,
so sequences of operations only ever continue from the success state). -/
def Pool.pushF {T : Type} (p : Pool T) (v : T) : Pool T :=
  ((p.push v).map Prod.snd).getD p

/-- Push every element of `vs` in order. -/
def pushAll {T : Type} (p : Pool T) (vs : List T) : Pool T :=
  vs.foldl Pool.pushF p

/-- The pool state after `remove i` (also defined on the panic states, where
it is the state at the panic point). -/
def Pool.removeF {T : Type} (p : Pool T) (i : Nat) : Pool T :=
  (p.remove i).2

/-- Remove every index of `js` in order. -/
def removeAll {T : Type} (p : Pool T) (js : List Nat) : Pool T :=
  js.foldl Pool.removeF p

/-- The pool obtained by pushing `vs` into a fresh pool and then removing the
handles `js`. -/
def afterPushRemove {T : Type} (vs : List T) (js : List Nat) : Pool T :=
  removeAll (pushAll Pool.new vs) js

theorem Pool.pushF_of_free_none {T : Type} {p : Pool T} (h : p.free_list = none) (v : T) :
    p.pushF v = { len := p.len + 1, free_list := none,
                  entries := p.entries ++ [PoolEntry.Occupied v] } := by
  simp [Pool.pushF, Pool.push, h]

theorem pushAll_of_free_none {T : Type} :
    ∀ (vs : List T) (p : Pool T), p.free_list = none →
      pushAll p vs = { len := p.len + vs.length, free_list := none,
                       entries := p.entries ++ vs.map PoolEntry.Occupied } := by
  intro vs
  induction vs with
  | nil =>
    intro p h
    cases p with
    | mk len fl entries => simp_all [pushAll]
  | cons v vs ih =>
    intro p h
    have hstep : pushAll p (v :: vs) = pushAll (p.pushF v) vs := rfl
    rw [hstep, Pool.pushF_of_free_none h, ih _ rfl]
    simp
    omega

/-- Invariant of the removal phase: storage length is fixed, not-yet-removed
indices still hold their original values, removed indices hold free entries. -/
structure RemInv {T : Type} (vs : List T) (removed : List Nat) (p : Pool T) : Prop where
  hlen : p.entries.length = vs.length
  hocc : ∀ i v, vs[i]? = some v → i ∉ removed →
    p.entries[i]? = some (PoolEntry.Occupied v)
  hfree : ∀ i ∈ removed, ∃ e, p.entries[i]? = some e ∧ e.isOccupied = false

theorem remInv_step {T : Type} {vs : List T} {removed : List Nat} {p : Pool T}
    (inv : RemInv vs removed p) {j : Nat} (hj : j < vs.length) (hnr : j ∉ removed) :
    RemInv vs (j :: removed) (p.removeF j) := by
  have hv : vs[j]? = some (vs.get ⟨j, hj⟩) := by
    simp [List.getElem?_eq_getElem hj]
  have he := inv.hocc j _ hv hnr
  have hjlen : j < p.entries.length := by rw [inv.hlen]; exact hj
  have hrm := Pool.remove_of_occupied he
  have hent : (p.removeF j).entries = p.entries.set j (Pool.freeNode p.free_list) := by
    rw [Pool.removeF, hrm]
  refine ⟨?_, ?_, ?_⟩
  · rw [hent]
    simpa using inv.hlen
  · intro i w hw hmem
    have hij : i ≠ j := fun hh => hmem (hh ▸ List.mem_cons_self _ _)
    have hmem' : i ∉ removed := fun hh => hmem (List.mem_cons_of_mem _ hh)
    rw [hent, List.getElem?_set_ne (Ne.symm hij)]
    exact inv.hocc i w hw hmem'
  · intro i hi
    rcases List.mem_cons.mp hi with hij | hmem'
    · subst hij
      exact ⟨_, by rw [hent]; exact getElem?_set_self_of_lt _ _ _ hjlen,
        freeNode_not_occupied _⟩
    · have hij : j ≠ i := fun hh => hnr (hh ▸ hmem')
      obtain ⟨e, hee, hocc⟩ := inv.hfree i hmem'
      exact ⟨e, by rw [hent, List.getElem?_set_ne hij]; exact hee, hocc⟩

theorem removeAll_inv {T : Type} {vs : List T} :
    ∀ (js : List Nat) (p : Pool T) (removed : List Nat),
      RemInv vs removed p → js.Nodup → (∀ j ∈ js, j < vs.length) →
      (∀ j ∈ js, j ∉ removed) →
      RemInv vs (js.reverse ++ removed) (removeAll p js) := by
  intro js
  induction js with
  | nil =>
    intro p removed inv _ _ _
    simpa [removeAll] using inv
  | cons j js ih =>
    intro p removed inv hnd hlt hdis
    have hstep : removeAll p (j :: js) = removeAll (p.removeF j) js := rfl
    have inv' := remInv_step inv (hlt j (List.mem_cons_self _ _))
      (hdis j (List.mem_cons_self _ _))
    have hnd' := List.Nodup.of_cons hnd
    have hlt' : ∀ x ∈ js, x < vs.length := fun x hx => hlt x (List.mem_cons_of_mem _ hx)
    have hdis' : ∀ x ∈ js, x ∉ j :: removed := by
      intro x hx
      intro hmem
      rcases List.mem_cons.mp hmem with hxj | hxr
      · exact (List.nodup_cons.mp hnd).1 (hxj ▸ hx)
      · exact hdis x (List.mem_cons_of_mem _ hx) hxr
    have := ih (p.removeF j) (j :: removed) inv' hnd' hlt' hdis'
    rw [hstep]
    have harr : js.reverse ++ j :: removed = (j :: js).reverse ++ removed := by
      simp
    rwa [harr] at this

theorem remInv_init {T : Type} (vs : List T) : RemInv vs [] (pushAll Pool.new vs) := by
  rw [pushAll_of_free_none vs Pool.new rfl]
  refine ⟨by simp [Pool.new], ?_, by simp⟩
  intro i v hv _
  simpa [Pool.new] using congrArg (Option.map PoolEntry.Occupied) hv

theorem toList_aux {T : Type} (js : List Nat) :
    ∀ (vs : List T) (k : Nat) (es : List (PoolEntry T)),
      es.length = vs.length →
      (∀ i v, vs[i]? = some v → (i + k) ∉ js → es[i]? = some (PoolEntry.Occupied v)) →
      (∀ i, i < es.length → (i + k) ∈ js → ∃ e, es[i]? = some e ∧ e.isOccupied = false) →
      (es.enumFrom k).filterMap filter_pool =
        (vs.enumFrom k).filter (fun q => !(js.contains q.1)) := by
  intro vs
  induction vs with
  | nil =>
    intro k es hlen _ _
    have : es = [] := List.length_eq_zero.mp hlen
    subst this
    simp
  | cons v vs ih =>
    intro k es hlen hocc hfree
    rcases es with _ | ⟨e, es'⟩
    · simp at hlen
    · have hlen' : es'.length = vs.length := by simpa using hlen
      have htail : (es'.enumFrom (k + 1)).filterMap filter_pool =
          (vs.enumFrom (k + 1)).filter (fun q => !(js.contains q.1)) := by
        apply ih (k + 1) es' hlen'
        · intro i w hw hmem
          have := hocc (i + 1) w (by simpa using hw)
            (by rwa [show i + 1 + k = i + (k + 1) by omega])
          simpa using this
        · intro i hi hmem
          have := hfree (i + 1) (by simpa using Nat.succ_lt_succ hi)
            (by rwa [show i + 1 + k = i + (k + 1) by omega])
          simpa using this
      by_cases hk : k ∈ js
      · obtain ⟨e0, he0, hocc0⟩ := hfree 0 (by simp) (by simpa using hk)
        have he0' : e = e0 := by simpa using he0
        subst he0'
        have hfp : filter_pool (k, e) = none := by
          rcases e with _ | nf | w
          · rfl
          · rfl
          · simp [PoolEntry.isOccupied] at hocc0
        have hcont : js.contains k = true := List.elem_iff.mpr hk
        simp only [List.enumFrom, List.filterMap_cons, hfp, List.filter_cons, hcont,
          Bool.not_true]
        exact htail
      · have he := hocc 0 v (by simp) (by simpa using hk)
        have he' : e = PoolEntry.Occupied v := by simpa using he
        subst he'
        have hcont : js.contains k = false := by
          rcases hc : js.contains k with _ | _
          · rfl
          · exact absurd (List.elem_iff.mp hc) hk
        simp only [List.enumFrom, List.filterMap_cons, filter_pool, List.filter_cons,
          hcont, Bool.not_false]
        simp [htail]

/-- C1: pushing `vs` into a fresh pool hands out handles `0, ..., vs.length-1`;
after removing any duplicate-free subset `js` of them, iteration yields exactly
the (handle, value) pairs of the surviving entries in ascending handle order,
and every surviving entry is still readable at its original handle. -/
theorem iteration_after_removals {T : Type} (vs : List T) (js : List Nat)
    (hnd : js.Nodup) (hlt : ∀ j ∈ js, j < vs.length) :
    (afterPushRemove vs js).toList = vs.enum.filter (fun q => !(js.contains q.1)) ∧
    (∀ i v, vs[i]? = some v → i ∉ js → (afterPushRemove vs js).get i = some v) := by
  have hinv := removeAll_inv js (pushAll Pool.new vs) [] (remInv_init vs) hnd hlt
    (by simp)
  have hmem : ∀ i : Nat, i ∈ js.reverse ++ ([] : List Nat) ↔ i ∈ js := by simp
  refine ⟨?_, ?_⟩
  · have h0 : (afterPushRemove vs js).toList =
        ((afterPushRemove vs js).entries.enumFrom 0).filterMap filter_pool := rfl
    have h1 : vs.enum = vs.enumFrom 0 := rfl
    rw [h0, h1]
    apply toList_aux js vs 0 _ hinv.hlen
    · intro i w hw hm
      have hm' : i ∉ js := by simpa using hm
      exact hinv.hocc i w hw (fun hh => hm' ((hmem i).mp hh))
    · intro i hi hm
      have hm' : i ∈ js := by simpa using hm
      exact hinv.hfree i ((hmem i).mpr hm')
  · intro i v hv hm
    have := hinv.hocc i v hv (fun hh => hm ((hmem i).mp hh))
    unfold Pool.get afterPushRemove
    rw [this]

/-- Witness for `iteration_after_removals`: push 10,20,30,40, remove handles
2 and 1; iteration yields [(0,10), (3,40)] and handle 3 still reads 40. -/
theorem iteration_after_removals_witness :
    (afterPushRemove [10, 20, 30, 40] [2, 1] : Pool Nat).toList = [(0, 10), (3, 40)] ∧
    (afterPushRemove [10, 20, 30, 40] [2, 1] : Pool Nat).get 3 = some 40 := by
  have h := iteration_after_removals [10, 20, 30, 40] [2, 1] (by decide) (by decide)
  exact ⟨by rw [h.1]; decide, h.2 3 40 (by decide) (by decide)⟩

/-- Witness for `len_counts_occupied` on a concrete reachable pool
obtained by pushing 3 into a fresh pool. -/
theorem len_counts_occupied_witness :
    (Pool.mk 1 none [PoolEntry.Occupied 3] : Pool Nat).len =
      countOcc (Pool.mk 1 none [PoolEntry.Occupied 3] : Pool Nat).entries :=
  (len_counts_occupied _
    (Reachable.push Pool.new 3 0 (Pool.mk 1 none [PoolEntry.Occupied 3])
      Reachable.new (by decide))).1

/-!
The demo `World::step` orchestrator (mgf_demo/world.rs).

world.rs calls into the mgf library for geometric and solver primitives
(`SimpleDynamicBody::integrate`, `bounds`, `AABB::contains`, `BVH`,
`local_contacts`, `ContactPruner`, `Manifold::from`, `ContactSolver`), whose
sources are not part of the package under verification here. They are
abstracted as fields of a `Phys` record; the `BVH` itself is modelled from the
spec (section 4.2: `insert`/`remove`/indexed read/`query` visiting each stored
entry whose bounds intersect the region exactly once). The `step` loop below
is translated line by line from `World::step` and instrumented with an event
trace recording integration, bounds refresh, terrain contact generation,
constraint registration, dynamic-pair contact generation and the final solve.
-/

/-- Modelled from the spec: a constraint registered with the contact solver by
`ContactSolver::add_constraint` — the two bodies it references (by identity:
`none` stands for the single static terrain body), the manifold, and `dt`. -/
structure Constraint (M D : Type) where
  bodyA : Nat
  bodyB : Option Nat
  manifold : M
  dt : D
deriving DecidableEq

/-- Modelled from the spec: one entry of the bounding-volume hierarchy —
an index handle, the stored (fattened) bounds and the payload id. -/
structure BVHEntry (B : Type) where
  handle : Nat
  bounds : B
  payload : Nat
deriving DecidableEq

/-- Modelled from the spec (section 4.2): the spatial index as a flat store of
entries; the tree arrangement is an implementation detail with no observable
effect on `insert`/`remove`/indexed-read/`query` beyond visit order, which the
spec leaves unspecified (here: insertion order). -/
structure BVH (B : Type) where
  nextId : Nat
  entries : List (BVHEntry B)
deriving DecidableEq

namespace BVH

/-- Modelled from the spec: `insert(fattened_bounds, payload_id) -> index_handle`. -/
def insert {B : Type} (t : BVH B) (bounds : B) (payload : Nat) : Nat × BVH B :=
  (t.nextId,
    { nextId := t.nextId + 1,
      entries := t.entries ++ [⟨t.nextId, bounds, payload⟩] })

/-- Modelled from the spec: `remove(index_handle)`. -/
def remove {B : Type} (t : BVH B) (h : Nat) : BVH B :=
  { t with entries := t.entries.filter (fun e => e.handle != h) }

/-- Modelled from the spec: indexed read of the stored bounds for a handle
(present iff the handle is live). -/
def lookup {B : Type} (t : BVH B) (h : Nat) : Option B :=
  (t.entries.find? (fun e => e.handle == h)).map BVHEntry.bounds

/-- Modelled from the spec: `query(region, visit_fn)` visits the payload of
every stored entry whose bounds intersect the region, once each. -/
def query {B : Type} (t : BVH B) (inter : B → B → Bool) (region : B) : List Nat :=
  (t.entries.filter (fun e => inter e.bounds region)).map BVHEntry.payload

end BVH

/-- Modelled from the spec: the mgf primitives consumed by `World::step`,
abstracted over their concrete types — bodies, bounding volumes, local
contacts, manifolds and the timestep. `integrate`/`bounds`/`fatten` (the
`+ 5.0` margin)/`containsB` (`AABB::contains`)/`intersects` come from mgf's
geometry; `terrainContacts`/`dynContacts` are `local_contacts` against the
terrain `StaticBody` and against another dynamic body; `manifoldOfContact` is
`Manifold::from(local_contact)`; `manifoldOfPruned` is
`Manifold::from(ContactPruner)` over a pushed contact sequence; `solveBodies`
is `ContactSolver::solve(iterations)` acting on the bodies referenced by the
accumulated constraints. -/
structure Phys : Type 1 where
  Body : Type
  Bounds : Type
  Contact : Type
  CManifold : Type
  Dt : Type
  integrate : Body → Dt → Body
  bounds : Body → Bounds
  fatten : Bounds → Bounds
  containsB : Bounds → Bounds → Bool
  intersects : Bounds → Bounds → Bool
  terrainContacts : Body → List Contact
  dynContacts : Body → Body → List Contact
  manifoldOfContact : Contact → CManifold
  manifoldOfPruned : List Contact → CManifold
  solveBodies : List (Constraint CManifold Dt) → Nat → List Body → List Body

/-- Events recorded while `step` runs, used to state ordering properties. -/
inductive Ev where
  | integrate (i : Nat)
  | refresh (i : Nat)
  | terrainGen (i : Nat)
  | addTerrain (i : Nat)
  | dynGen (i j : Nat)
  | addDyn (i j : Nat)
  | solve (n : Nat)
deriving DecidableEq

/-- The state threaded through the `step` loop: the body vector (each body
paired with its BVH handle, as in `Vec<(SimpleDynamicBody, usize)>`), the
spatial index, the solver's accumulated constraints, and the event trace. -/
structure LoopSt (P : Phys) where
  bodies : List (P.Body × Nat)
  bvh : BVH P.Bounds
  cs : List (Constraint P.CManifold P.Dt)
  tr : List Ev

/-- world.rs step, line 222: `self.bodies[body_i].0.integrate(dt)`. -/
def integPhase (P : Phys) (dt : P.Dt) (s : LoopSt P) (i : Nat) : LoopSt P :=
  match s.bodies[i]? with
  | some (b, h) =>
      { s with bodies := s.bodies.set i (P.integrate b dt, h),
               tr := s.tr ++ [Ev.integrate i] }
  | none => { s with tr := s.tr ++ [Ev.integrate i] }

/-- world.rs step, lines 223-227: recompute tight bounds and, if they escape
the stored fattened bounds, remove and re-insert the body's BVH entry with
freshly fattened bounds (updating the stored handle). -/
def refreshPhase (P : Phys) (s : LoopSt P) (i : Nat) : LoopSt P :=
  match s.bodies[i]? with
  | some (b, h) =>
    let bd := P.bounds b
    if (match s.bvh.lookup h with
        | some sb => P.containsB sb bd
        | none => false) then
      { s with tr := s.tr ++ [Ev.refresh i] }
    else
      let t1 := s.bvh.remove h
      let ins := t1.insert (P.fatten bd) i
      { s with bvh := ins.2, bodies := s.bodies.set i (b, ins.1),
               tr := s.tr ++ [Ev.refresh i] }
  | none => { s with tr := s.tr ++ [Ev.refresh i] }

/-- world.rs step, lines 231-244: generate contacts against the terrain; every
local contact becomes its own manifold and is registered with the solver. -/
def terrainPhase (P : Phys) (dt : P.Dt) (s : LoopSt P) (i : Nat) : LoopSt P :=
  match s.bodies[i]? with
  | some (b, _) =>
    let lcs := P.terrainContacts b
    { s with
      cs := s.cs ++ lcs.map (fun c => ⟨i, none, P.manifoldOfContact c, dt⟩),
      tr := s.tr ++ [Ev.terrainGen i] ++ lcs.map (fun _ => Ev.addTerrain i) }
  | none => { s with tr := s.tr ++ [Ev.terrainGen i] }

/-- world.rs step, lines 246-277: skip the first body, otherwise query the BVH
with the body's post-integration tight bounds; for each candidate with
strictly smaller identity, generate local contacts, prune them into one
manifold and register it. -/
def dynPhase (P : Phys) (dt : P.Dt) (s : LoopSt P) (i : Nat) : LoopSt P :=
  if i = 0 then s
  else
    match s.bodies[i]? with
    | some (b, _) =>
      let cands := (s.bvh.query P.intersects (P.bounds b)).filter
        (fun j => decide (j < i))
      { s with
        cs := s.cs ++ cands.map (fun j =>
          ⟨i, some j, P.manifoldOfPruned (P.dynContacts b
            (match s.bodies[j]? with
             | some q => q.1
             | none => b)), dt⟩),
        tr := s.tr ++ cands.flatMap (fun j => [Ev.dynGen i j, Ev.addDyn i j]) }
    | none => s

/-- One iteration of the `for body_i in 0..self.bodies.len()` loop. -/
def stepIter (P : Phys) (dt : P.Dt) (s : LoopSt P) (i : Nat) : LoopSt P :=
  dynPhase P dt (terrainPhase P dt (refreshPhase P (integPhase P dt s i) i) i) i

/-- The loop state after processing bodies `0, ..., k-1`. -/
def loopStateK (P : Phys) (dt : P.Dt) (s0 : LoopSt P) (k : Nat) : LoopSt P :=
  (List.range k).foldl (stepIter P dt) s0

/-- world.rs `World::step`: run the loop over all bodies, then
`contact_solver.solve(20)`. Returns the final loop state (bodies after the
solve, spatial index, constraints, trace). -/
def stepRun (P : Phys) (dt : P.Dt) (bodies : List (P.Body × Nat))
    (bvh : BVH P.Bounds) : LoopSt P :=
  let s1 := loopStateK P dt ⟨bodies, bvh, [], []⟩ bodies.length
  { s1 with
    bodies := (P.solveBodies s1.cs 20 (s1.bodies.map Prod.fst)).zip
      (s1.bodies.map Prod.snd),
    tr := s1.tr ++ [Ev.solve 20] }

/-- The event trace of one full `step`. -/
def stepTrace (P : Phys) (dt : P.Dt) (bodies : List (P.Body × Nat))
    (bvh : BVH P.Bounds) : List Ev :=
  (stepRun P dt bodies bvh).tr

/-- world.rs `World`: the simulation-relevant fields (`bodies`, `bvh`)
together with the fields owned by the excluded rendering/input collaborator
(camera state, GPU buffers, and the seeded render-time RNG), abstracted as a
single `renderState` of arbitrary type. -/
structure World (P : Phys) (R : Type) where
  renderState : R
  bodies : List (P.Body × Nat)
  bvh : BVH P.Bounds

/-- world.rs `World::step` acting on a `World`: only the simulation fields
are read and written. -/
def World.step {P : Phys} {R : Type} (w : World P R) (dt : P.Dt) : World P R :=
  let s := stepRun P dt w.bodies w.bvh
  { w with bodies := s.bodies, bvh := s.bvh }

/-- world.rs `World::insert_body`: append the body, insert its fattened
bounds into the BVH, pair the body with the returned handle. -/
def World.insert_body {P : Phys} {R : Type} (w : World P R) (b : P.Body) :
    Nat × World P R :=
  let id := w.bodies.length
  let ins := w.bvh.insert (P.fatten (P.bounds b)) id
  (id, { w with bodies := w.bodies ++ [(b, ins.1)], bvh := ins.2 })

/-! Trace structure of one loop iteration. -/

/-- The loop state after the integrate and refresh phases of iteration `i`. -/
def preTerrSt (P : Phys) (dt : P.Dt) (s : LoopSt P) (i : Nat) : LoopSt P :=
  refreshPhase P (integPhase P dt s i) i

/-- The loop state right before the dynamic-vs-dynamic phase of iteration `i`. -/
def preDynSt (P : Phys) (dt : P.Dt) (s : LoopSt P) (i : Nat) : LoopSt P :=
  terrainPhase P dt (preTerrSt P dt s i) i

/-- The `addTerrain` events iteration `i` emits from state `s`. -/
def terrAddsAt (P : Phys) (s : LoopSt P) (i : Nat) : List Ev :=
  match s.bodies[i]? with
  | some q => (P.terrainContacts q.1).map (fun _ => Ev.addTerrain i)
  | none => []

/-- The broad-phase candidates the dynamic phase pairs with driver `i` when
run from state `s`: payloads of intersecting BVH entries, filtered to strictly
smaller identities. -/
def dynCandsAt (P : Phys) (s : LoopSt P) (i : Nat) : List Nat :=
  match s.bodies[i]? with
  | some q => (s.bvh.query P.intersects (P.bounds q.1)).filter
      (fun j => decide (j < i))
  | none => []

/-- The events emitted by iteration `i` of the step loop from state `s`. -/
def blockEvs (P : Phys) (dt : P.Dt) (s : LoopSt P) (i : Nat) : List Ev :=
  [Ev.integrate i, Ev.refresh i, Ev.terrainGen i]
    ++ terrAddsAt P (preTerrSt P dt s i) i
    ++ (dynCandsAt P (preDynSt P dt s i) i).flatMap
        (fun j => [Ev.dynGen i j, Ev.addDyn i j])

theorem integPhase_tr (P : Phys) (dt : P.Dt) (s : LoopSt P) (i : Nat) :
    (integPhase P dt s i).tr = s.tr ++ [Ev.integrate i] := by
  rcases h : s.bodies[i]? with _ | q
  · simp [integPhase, h]
  · obtain ⟨b, hh⟩ := q
    simp [integPhase, h]

theorem refreshPhase_tr (P : Phys) (s : LoopSt P) (i : Nat) :
    (refreshPhase P s i).tr = s.tr ++ [Ev.refresh i] := by
  rcases h : s.bodies[i]? with _ | q
  · simp [refreshPhase, h]
  · obtain ⟨b, hh⟩ := q
    simp only [refreshPhase, h]
    split <;> rfl

theorem terrainPhase_tr (P : Phys) (dt : P.Dt) (s : LoopSt P) (i : Nat) :
    (terrainPhase P dt s i).tr = s.tr ++ [Ev.terrainGen i] ++ terrAddsAt P s i := by
  rcases h : s.bodies[i]? with _ | q
  · simp [terrainPhase, terrAddsAt, h]
  · obtain ⟨b, hh⟩ := q
    simp [terrainPhase, terrAddsAt, h]

theorem dynPhase_tr (P : Phys) (dt : P.Dt) (s : LoopSt P) (i : Nat) :
    (dynPhase P dt s i).tr =
      s.tr ++ (dynCandsAt P s i).flatMap (fun j => [Ev.dynGen i j, Ev.addDyn i j]) := by
  by_cases h0 : i = 0
  · subst h0
    have hf : ∀ l : List Nat, l.filter (fun j => decide (j < 0)) = [] := by
      intro l
      simp
    rcases h : s.bodies[0]? with _ | q
    · simp [dynPhase, dynCandsAt, h]
    · simp [dynPhase, dynCandsAt, h, hf]
  · rcases h : s.bodies[i]? with _ | q
    · simp [dynPhase, dynCandsAt, h, h0]
    · obtain ⟨b, hh⟩ := q
      simp [dynPhase, dynCandsAt, h, h0]

theorem stepIter_tr (P : Phys) (dt : P.Dt) (s : LoopSt P) (i : Nat) :
    (stepIter P dt s i).tr = s.tr ++ blockEvs P dt s i := by
  unfold stepIter
  rw [dynPhase_tr, terrainPhase_tr, refreshPhase_tr, integPhase_tr]
  simp [blockEvs, preDynSt, preTerrSt]

theorem loopStateK_zero (P : Phys) (dt : P.Dt) (s0 : LoopSt P) :
    loopStateK P dt s0 0 = s0 := rfl

theorem loopStateK_succ (P : Phys) (dt : P.Dt) (s0 : LoopSt P) (k : Nat) :
    loopStateK P dt s0 (k + 1) = stepIter P dt (loopStateK P dt s0 k) k := by
  unfold loopStateK
  rw [List.range_succ, List.foldl_append]
  rfl

/-! Generic properties of a block of events. -/

theorem mem_terrAddsAt {P : Phys} {s : LoopSt P} {i : Nat} {e : Ev}
    (h : e ∈ terrAddsAt P s i) : e = Ev.addTerrain i := by
  unfold terrAddsAt at h
  rcases hb : s.bodies[i]? with _ | q
  · rw [hb] at h
    simp at h
  · rw [hb] at h
    obtain ⟨c, _, hc⟩ := List.mem_map.mp h
    exact hc.symm

theorem mem_dynCandsAt_lt {P : Phys} {s : LoopSt P} {i j : Nat}
    (h : j ∈ dynCandsAt P s i) : j < i := by
  unfold dynCandsAt at h
  rcases hb : s.bodies[i]? with _ | q
  · rw [hb] at h
    simp at h
  · rw [hb] at h
    have := (List.mem_filter.mp h).2
    exact of_decide_eq_true this

theorem mem_blockEvs_cases {P : Phys} {dt : P.Dt} {s : LoopSt P} {i : Nat} {e : Ev}
    (h : e ∈ blockEvs P dt s i) :
    e = Ev.integrate i ∨ e = Ev.refresh i ∨ e = Ev.terrainGen i ∨
    e = Ev.addTerrain i ∨
    ∃ j ∈ dynCandsAt P (preDynSt P dt s i) i,
      e = Ev.dynGen i j ∨ e = Ev.addDyn i j := by
  unfold blockEvs at h
  rcases List.mem_append.mp h with h1 | hdyn
  · rcases List.mem_append.mp h1 with h3 | hterr
    · simp at h3
      rcases h3 with h | h | h
      · exact Or.inl h
      · exact Or.inr (Or.inl h)
      · exact Or.inr (Or.inr (Or.inl h))
    · exact Or.inr (Or.inr (Or.inr (Or.inl (mem_terrAddsAt hterr))))
  · obtain ⟨j, hj, hm⟩ := List.mem_flatMap.mp hdyn
    simp at hm
    rcases hm with h | h
    · exact Or.inr (Or.inr (Or.inr (Or.inr ⟨j, hj, Or.inl h⟩)))
    · exact Or.inr (Or.inr (Or.inr (Or.inr ⟨j, hj, Or.inr h⟩)))

theorem blockEvs_no_solve {P : Phys} {dt : P.Dt} {s : LoopSt P} {i : Nat} {m : Nat}
    (h : Ev.solve m ∈ blockEvs P dt s i) : False := by
  rcases mem_blockEvs_cases h with h | h | h | h | ⟨j, _, h | h⟩ <;> cases h

/-! C8: each step calls the solver exactly once, last, with 20 iterations. -/

theorem loop_no_solve (P : Phys) (dt : P.Dt) (bodies : List (P.Body × Nat))
    (bvh : BVH P.Bounds) :
    ∀ k m, Ev.solve m ∉ (loopStateK P dt ⟨bodies, bvh, [], []⟩ k).tr := by
  intro k
  induction k with
  | zero =>
    intro m h
    simp [loopStateK] at h
  | succ n ih =>
    intro m h
    rw [loopStateK_succ, stepIter_tr] at h
    rcases List.mem_append.mp h with h | h
    · exact ih m h
    · exact blockEvs_no_solve h

/-- C8: the trace of every full step consists of a solver-free prefix followed
by exactly one `solve` event with an iteration count of 20: the solver's
`solve` runs exactly once, after all bodies have been processed. -/
theorem solve_called_once_last (P : Phys) (dt : P.Dt)
    (bodies : List (P.Body × Nat)) (bvh : BVH P.Bounds) :
    ∃ t, stepTrace P dt bodies bvh = t ++ [Ev.solve 20] ∧
      ∀ m, Ev.solve m ∉ t := by
  refine ⟨(loopStateK P dt ⟨bodies, bvh, [], []⟩ bodies.length).tr, rfl, ?_⟩
  intro m
  exact loop_no_solve P dt bodies bvh bodies.length m

/-! C5: per-pair ordering of integration, refresh, terrain generation and
dynamic-vs-dynamic generation. -/

theorem loop_head_sublist (P : Phys) (dt : P.Dt) (bodies : List (P.Body × Nat))
    (bvh : BVH P.Bounds) :
    ∀ k m, m < k →
      [Ev.integrate m, Ev.refresh m, Ev.terrainGen m].Sublist
        (loopStateK P dt ⟨bodies, bvh, [], []⟩ k).tr := by
  intro k
  induction k with
  | zero => intro m hm; exact absurd hm (Nat.not_lt_zero m)
  | succ n ih =>
    intro m hm
    rw [loopStateK_succ, stepIter_tr]
    rcases Nat.lt_succ_iff_lt_or_eq.mp hm with h | h
    · exact (ih m h).trans (List.sublist_append_left _ _)
    · subst h
      have hpre : [Ev.integrate m, Ev.refresh m, Ev.terrainGen m].Sublist
          (blockEvs P dt (loopStateK P dt ⟨bodies, bvh, [], []⟩ m) m) :=
        (List.sublist_append_left _ _).trans (List.sublist_append_left _ _)
      exact hpre.trans (List.sublist_append_right _ _)

theorem loop_dynGen_mem (P : Phys) (dt : P.Dt) (bodies : List (P.Body × Nat))
    (bvh : BVH P.Bounds) :
    ∀ k i j, Ev.dynGen i j ∈ (loopStateK P dt ⟨bodies, bvh, [], []⟩ k).tr →
      j < i ∧ i < k ∧
      [Ev.integrate j, Ev.refresh j, Ev.terrainGen j,
       Ev.integrate i, Ev.refresh i, Ev.terrainGen i,
       Ev.dynGen i j].Sublist (loopStateK P dt ⟨bodies, bvh, [], []⟩ k).tr := by
  intro k
  induction k with
  | zero =>
    intro i j h
    simp [loopStateK] at h
  | succ n ih =>
    intro i j h
    rw [loopStateK_succ, stepIter_tr] at h ⊢
    rcases List.mem_append.mp h with h | hblk
    · obtain ⟨hji, hik, hsub⟩ := ih i j h
      exact ⟨hji, Nat.lt_succ_of_lt hik,
        hsub.trans (List.sublist_append_left _ _)⟩
    · rcases mem_blockEvs_cases hblk with h | h | h | h | ⟨j', hj', h | h⟩
      · exact Ev.noConfusion h
      · exact Ev.noConfusion h
      · exact Ev.noConfusion h
      · exact Ev.noConfusion h
      · obtain ⟨hin, hjj⟩ : i = n ∧ j = j' := by
          injection h with h1 h2
          exact ⟨h1, h2⟩
        subst hin
        subst hjj
        have hjn : j < i := mem_dynCandsAt_lt hj'
        have h1 := loop_head_sublist P dt bodies bvh i j hjn
        have hd : [Ev.dynGen i j].Sublist
            ((dynCandsAt P (preDynSt P dt (loopStateK P dt ⟨bodies, bvh, [], []⟩ i) i) i).flatMap
              (fun j2 => [Ev.dynGen i j2, Ev.addDyn i j2])) := by
          apply List.singleton_sublist.mpr
          exact List.mem_flatMap.mpr ⟨j, hj', by simp⟩
        have h2 : ([Ev.integrate i, Ev.refresh i, Ev.terrainGen i] ++
            [Ev.dynGen i j]).Sublist
              (blockEvs P dt (loopStateK P dt ⟨bodies, bvh, [], []⟩ i) i) :=
          List.Sublist.append (List.sublist_append_left _ _) hd
        exact ⟨hjn, Nat.lt_succ_self i, h1.append h2⟩
      · exact Ev.noConfusion h

/-- C5 (amended): whenever dynamic-vs-dynamic contact generation runs for the
ordered pair (i, j), the candidate identity is strictly smaller (j < i) and
both bodies involved — not necessarily all bodies — have already been
integrated, had their spatial-index bounds refreshed and had their terrain
contacts generated earlier in the step. -/
theorem step_pair_ordering (P : Phys) (dt : P.Dt) (bodies : List (P.Body × Nat))
    (bvh : BVH P.Bounds) (i j : Nat)
    (h : Ev.dynGen i j ∈ stepTrace P dt bodies bvh) :
    j < i ∧
    [Ev.integrate j, Ev.refresh j, Ev.terrainGen j,
     Ev.integrate i, Ev.refresh i, Ev.terrainGen i,
     Ev.dynGen i j].Sublist (stepTrace P dt bodies bvh) := by
  have hsplit : stepTrace P dt bodies bvh =
      (loopStateK P dt ⟨bodies, bvh, [], []⟩ bodies.length).tr ++ [Ev.solve 20] := rfl
  rw [hsplit] at h ⊢
  rcases List.mem_append.mp h with h | h
  · obtain ⟨hji, _, hsub⟩ := loop_dynGen_mem P dt bodies bvh bodies.length i j h
    exact ⟨hji, hsub.trans (List.sublist_append_left _ _)⟩
  · simp at h

/-! Well-formedness of the body/BVH association, as established by
`World::new` + `insert_body` and maintained by the step loop. -/

theorem list_set_self {α : Type} :
    ∀ (l : List α) (i : Nat) (a : α), l[i]? = some a → l.set i a = l := by
  intro l
  induction l with
  | nil => intro i a h; simp at h
  | cons x l ih =>
    intro i a h
    cases i with
    | zero =>
      simp at h
      simp [h]
    | succ n =>
      simp only [List.getElem?_cons_succ] at h
      simp [ih n a h]

/-- Well-formedness of a BVH relative to the list `hs` of the handles stored
with the bodies: payloads index into the body vector and are pairwise
distinct, handles are pairwise distinct and below `nextId`, and each body `i`
owns exactly the entry with payload `i`, through its stored handle. -/
def WFh {B : Type} (hs : List Nat) (t : BVH B) : Prop :=
  (∀ e ∈ t.entries, e.payload < hs.length) ∧
  (t.entries.map BVHEntry.payload).Nodup ∧
  (t.entries.map BVHEntry.handle).Nodup ∧
  (∀ e ∈ t.entries, e.handle < t.nextId) ∧
  (∀ i, i < hs.length → ∃ e ∈ t.entries, e.payload = i ∧ hs[i]? = some e.handle)

/-- Well-formedness of a loop state. -/
def WFls (P : Phys) (s : LoopSt P) : Prop :=
  WFh (s.bodies.map Prod.snd) s.bvh

theorem integPhase_bvh (P : Phys) (dt : P.Dt) (s : LoopSt P) (i : Nat) :
    (integPhase P dt s i).bvh = s.bvh := by
  rcases h : s.bodies[i]? with _ | ⟨b, hh⟩
  · simp [integPhase, h]
  · simp [integPhase, h]

theorem integPhase_sndMap (P : Phys) (dt : P.Dt) (s : LoopSt P) (i : Nat) :
    (integPhase P dt s i).bodies.map Prod.snd = s.bodies.map Prod.snd := by
  rcases h : s.bodies[i]? with _ | ⟨b, hh⟩
  · simp [integPhase, h]
  · simp only [integPhase, h]
    rw [List.map_set]
    apply list_set_self
    have hm : (s.bodies.map Prod.snd)[i]? = (s.bodies[i]?).map Prod.snd := by simp
    rw [hm, h]
    rfl

theorem terrainPhase_bodies (P : Phys) (dt : P.Dt) (s : LoopSt P) (i : Nat) :
    (terrainPhase P dt s i).bodies = s.bodies := by
  rcases h : s.bodies[i]? with _ | ⟨b, hh⟩
  · simp [terrainPhase, h]
  · simp [terrainPhase, h]

theorem terrainPhase_bvh (P : Phys) (dt : P.Dt) (s : LoopSt P) (i : Nat) :
    (terrainPhase P dt s i).bvh = s.bvh := by
  rcases h : s.bodies[i]? with _ | ⟨b, hh⟩
  · simp [terrainPhase, h]
  · simp [terrainPhase, h]

theorem dynPhase_bodies (P : Phys) (dt : P.Dt) (s : LoopSt P) (i : Nat) :
    (dynPhase P dt s i).bodies = s.bodies := by
  by_cases h0 : i = 0
  · simp [dynPhase, h0]
  · rcases h : s.bodies[i]? with _ | ⟨b, hh⟩
    · simp [dynPhase, h, h0]
    · simp [dynPhase, h, h0]

theorem dynPhase_bvh (P : Phys) (dt : P.Dt) (s : LoopSt P) (i : Nat) :
    (dynPhase P dt s i).bvh = s.bvh := by
  by_cases h0 : i = 0
  · simp [dynPhase, h0]
  · rcases h : s.bodies[i]? with _ | ⟨b, hh⟩
    · simp [dynPhase, h, h0]
    · simp [dynPhase, h, h0]

theorem refreshPhase_wf (P : Phys) (s : LoopSt P) (i : Nat)
    (hwf : WFls P s) : WFls P (refreshPhase P s i) := by
  rcases h : s.bodies[i]? with _ | q
  · unfold WFls refreshPhase
    rw [h]
    exact hwf
  · obtain ⟨b, hh⟩ := q
    unfold WFls refreshPhase
    rw [h]
    simp only
    split
    · exact hwf
    · show WFh ((s.bodies.set i (b, s.bvh.nextId)).map Prod.snd)
        ⟨s.bvh.nextId + 1,
         (s.bvh.entries.filter (fun e => e.handle != hh)) ++
           [⟨s.bvh.nextId, P.fatten (P.bounds b), i⟩]⟩
      rw [List.map_set]
      obtain ⟨h1, h2, h3, h4, h5⟩ := hwf
      have hi_lt : i < s.bodies.length := (List.getElem?_eq_some.mp h).1
      have hi_lt' : i < (s.bodies.map Prod.snd).length := by simpa using hi_lt
      have hsi : (s.bodies.map Prod.snd)[i]? = some hh := by
        have hm : (s.bodies.map Prod.snd)[i]? = (s.bodies[i]?).map Prod.snd := by simp
        rw [hm, h]
        rfl
      obtain ⟨e0, he0, hp0, hh0⟩ := h5 i hi_lt'
      have hh0' : e0.handle = hh := by
        rw [hsi] at hh0
        exact (Option.some_inj.mp hh0).symm
      have pinj : ∀ e1 ∈ s.bvh.entries, ∀ e2 ∈ s.bvh.entries,
          e1.payload = e2.payload → e1 = e2 :=
        fun e1 hm1 e2 hm2 hp => List.inj_on_of_nodup_map h2 hm1 hm2 hp
      have hinj : ∀ e1 ∈ s.bvh.entries, ∀ e2 ∈ s.bvh.entries,
          e1.handle = e2.handle → e1 = e2 :=
        fun e1 hm1 e2 hm2 hp => List.inj_on_of_nodup_map h3 hm1 hm2 hp
      have hFsub : ∀ e ∈ s.bvh.entries.filter (fun e => e.handle != hh),
          e ∈ s.bvh.entries := fun e he => (List.mem_filter.mp he).1
      have hFne : ∀ e ∈ s.bvh.entries.filter (fun e => e.handle != hh),
          e.handle ≠ hh := by
        intro e he
        have := (List.mem_filter.mp he).2
        simpa using this
      have hFpay : ∀ e ∈ s.bvh.entries.filter (fun e => e.handle != hh),
          e.payload ≠ i := by
        intro e he hpi
        apply hFne e he
        rw [pinj e (hFsub e he) e0 he0 (by rw [hpi, hp0])]
        exact hh0'
      refine ⟨?_, ?_, ?_, ?_, ?_⟩
      · intro e he
        rcases List.mem_append.mp he with heF | hnew
        · have := h1 e (hFsub e heF)
          simpa using this
        · have : e = ⟨s.bvh.nextId, P.fatten (P.bounds b), i⟩ := by simpa using hnew
          subst this
          simpa using hi_lt'
      · rw [List.map_append]
        refine List.nodup_append.mpr ⟨?_, by simp, ?_⟩
        · exact h2.sublist ((List.filter_sublist _).map _)
        · intro a ha hb
          have ha' : ∃ e ∈ s.bvh.entries.filter (fun e => e.handle != hh),
              e.payload = a := List.mem_map.mp ha
          obtain ⟨e, he, hpe⟩ := ha'
          have : a = i := by simpa using hb
          exact hFpay e he (by rw [hpe, this])
      · rw [List.map_append]
        refine List.nodup_append.mpr ⟨?_, by simp, ?_⟩
        · exact h3.sublist ((List.filter_sublist _).map _)
        · intro a ha hb
          obtain ⟨e, he, hpe⟩ := List.mem_map.mp ha
          have ha' : a = s.bvh.nextId := by simpa using hb
          have := h4 e (hFsub e he)
          rw [hpe, ha'] at this
          exact absurd this (lt_irrefl _)
      · intro e he
        rcases List.mem_append.mp he with heF | hnew
        · exact Nat.lt_succ_of_lt (h4 e (hFsub e heF))
        · have : e = ⟨s.bvh.nextId, P.fatten (P.bounds b), i⟩ := by simpa using hnew
          subst this
          exact Nat.lt_succ_self _
      · intro i' hi'
        have hi'' : i' < (s.bodies.map Prod.snd).length := by simpa using hi'
        by_cases hii : i' = i
        · subst hii
          refine ⟨⟨s.bvh.nextId, P.fatten (P.bounds b), i'⟩,
            List.mem_append_right _ (by simp), rfl, ?_⟩
          exact getElem?_set_self_of_lt _ _ _ hi''
        · obtain ⟨e', he', hp', hh'⟩ := h5 i' hi''
          have he'F : e' ∈ s.bvh.entries.filter (fun e => e.handle != hh) := by
            refine List.mem_filter.mpr ⟨he', ?_⟩
            simp only [bne_iff_ne, ne_eq, decide_eq_true_eq]
            intro heq
            have := hinj e' he' e0 he0 (by rw [heq, hh0'])
            rw [this] at hp'
            exact hii (hp0 ▸ hp'.symm ▸ rfl)
          refine ⟨e', List.mem_append_left _ he'F, hp', ?_⟩
          rw [List.getElem?_set_ne (Ne.symm hii)]
          exact hh'

theorem stepIter_wf (P : Phys) (dt : P.Dt) (s : LoopSt P) (i : Nat)
    (hwf : WFls P s) : WFls P (stepIter P dt s i) := by
  unfold stepIter
  unfold WFls
  rw [dynPhase_bodies, dynPhase_bvh, terrainPhase_bodies, terrainPhase_bvh]
  have : WFls P (integPhase P dt s i) := by
    unfold WFls
    rw [integPhase_sndMap, integPhase_bvh]
    exact hwf
  exact refreshPhase_wf P _ i this

theorem loop_wf (P : Phys) (dt : P.Dt) (s0 : LoopSt P) (hwf : WFls P s0) :
    ∀ k, WFls P (loopStateK P dt s0 k) := by
  intro k
  induction k with
  | zero => exact hwf
  | succ n ih =>
    rw [loopStateK_succ]
    exact stepIter_wf P dt _ n ih

theorem preDynSt_wf (P : Phys) (dt : P.Dt) (s : LoopSt P) (i : Nat)
    (hwf : WFls P s) : WFls P (preDynSt P dt s i) := by
  unfold preDynSt
  unfold WFls
  rw [terrainPhase_bodies, terrainPhase_bvh]
  unfold preTerrSt
  have : WFls P (integPhase P dt s i) := by
    unfold WFls
    rw [integPhase_sndMap, integPhase_bvh]
    exact hwf
  exact refreshPhase_wf P _ i this

/-! C4: each unordered pair of bodies is registered at most once per step;
exactly once when the pair broad-phase-overlaps at the driver's turn. -/

/-- Whether an event is the registration of a dynamic-pair constraint for the
unordered pair of identities a, b. -/
def isPairC (a b : Nat) (e : Ev) : Bool :=
  match e with
  | Ev.addDyn i j => (i == a && j == b) || (i == b && j == a)
  | _ => false

/-- Number of dynamic-pair constraint registrations for the unordered pair
of identities a, b in a trace. -/
def countPair (t : List Ev) (a b : Nat) : Nat :=
  t.countP (isPairC a b)

/-- Whether, in state `s`, some BVH entry with payload `a` intersects the
tight bounds of body `b` (the broad-phase overlap test driver `b` performs). -/
def broadOverlap (P : Phys) (s : LoopSt P) (a b : Nat) : Bool :=
  match s.bodies[b]? with
  | some q => s.bvh.entries.any
      (fun e => e.payload == a && P.intersects e.bounds (P.bounds q.1))
  | none => false

/-- Whether identity `a` broad-phase-overlaps body `b` at the moment of
iteration `b`'s spatial-index query (after `b`'s integration and refresh). -/
def overlapAtDriver (P : Phys) (dt : P.Dt) (bodies : List (P.Body × Nat))
    (bvh : BVH P.Bounds) (a b : Nat) : Bool :=
  broadOverlap P (preDynSt P dt (loopStateK P dt ⟨bodies, bvh, [], []⟩ b) b) a b

theorem dynCandsAt_nodup (P : Phys) (s : LoopSt P) (i : Nat) (hwf : WFls P s) :
    (dynCandsAt P s i).Nodup := by
  unfold dynCandsAt
  rcases h : s.bodies[i]? with _ | q
  · exact List.nodup_nil
  · apply List.Nodup.filter
    unfold BVH.query
    exact hwf.2.1.sublist ((List.filter_sublist _).map _)

theorem mem_dynCandsAt_iff (P : Phys) (s : LoopSt P) {a b : Nat} (hab : a < b) :
    a ∈ dynCandsAt P s b ↔ broadOverlap P s a b = true := by
  unfold dynCandsAt broadOverlap
  rcases h : s.bodies[b]? with _ | q
  · simp
  · constructor
    · intro hm
      have hm' := (List.mem_filter.mp hm).1
      unfold BVH.query at hm'
      obtain ⟨e, he, hpe⟩ := List.mem_map.mp hm'
      have hef := List.mem_filter.mp he
      apply List.any_eq_true.mpr
      exact ⟨e, hef.1, by simp [hpe, hef.2]⟩
    · intro hm
      obtain ⟨e, he, hpe⟩ := List.any_eq_true.mp hm
      have h1 : e.payload = a ∧ P.intersects e.bounds (P.bounds q.1) = true := by
        simpa using hpe
      apply List.mem_filter.mpr
      refine ⟨?_, by simpa using hab⟩
      unfold BVH.query
      exact List.mem_map.mpr ⟨e, List.mem_filter.mpr ⟨he, h1.2⟩, h1.1⟩

theorem countP_pairlist {a b : Nat} (hab : a < b) (k : Nat) :
    ∀ (ds : List Nat), (∀ j ∈ ds, j < k) →
      List.countP (isPairC a b)
          (ds.flatMap (fun j => [Ev.dynGen k j, Ev.addDyn k j])) =
        if k = b then ds.count a else 0 := by
  intro ds
  induction ds with
  | nil => simp
  | cons j ds ih =>
    intro hlt
    have hj : j < k := hlt j (List.mem_cons_self _ _)
    rw [List.flatMap_cons, List.countP_append,
      ih (fun x hx => hlt x (List.mem_cons_of_mem _ hx))]
    have hhead : List.countP (isPairC a b) [Ev.dynGen k j, Ev.addDyn k j] =
        if k = b then (if j == a then 1 else 0) else 0 := by
      simp only [List.countP_cons, List.countP_nil, isPairC]
      by_cases hkb : k = b
      · subst hkb
        have hka : (k == a) = false := beq_eq_false_iff_ne.mpr (by omega)
        simp [hka]
      · have hkb' : (k == b) = false := beq_eq_false_iff_ne.mpr hkb
        by_cases hka : k = a
        · subst hka
          have hjb : (j == b) = false := beq_eq_false_iff_ne.mpr (by omega)
          simp [hjb, hkb', hkb]
        · have hka' : (k == a) = false := beq_eq_false_iff_ne.mpr hka
          simp [hka', hkb', hkb]
    rw [hhead, List.count_cons]
    by_cases hkb : k = b
    · rw [if_pos hkb, if_pos hkb, if_pos hkb]
      by_cases hja : (j == a) = true
      · rw [if_pos hja]
        omega
      · rw [if_neg hja]
        omega
    · rw [if_neg hkb, if_neg hkb, if_neg hkb]

theorem countP_terrAdds {P : Phys} {s : LoopSt P} {i a b : Nat} :
    List.countP (isPairC a b) (terrAddsAt P s i) = 0 := by
  apply List.countP_eq_zero.mpr
  intro e he
  rw [mem_terrAddsAt he]
  simp [isPairC]

theorem countP_block (P : Phys) (dt : P.Dt) (s : LoopSt P) (k : Nat)
    {a b : Nat} (hab : a < b) :
    List.countP (isPairC a b) (blockEvs P dt s k) =
      if k = b then (dynCandsAt P (preDynSt P dt s k) k).count a else 0 := by
  unfold blockEvs
  rw [List.countP_append, List.countP_append]
  have h3 : List.countP (isPairC a b)
      [Ev.integrate k, Ev.refresh k, Ev.terrainGen k] = 0 := rfl
  rw [h3, countP_terrAdds,
    countP_pairlist hab k _ (fun j hj => mem_dynCandsAt_lt hj)]
  simp

theorem countP_loop (P : Phys) (dt : P.Dt) (bodies : List (P.Body × Nat))
    (bvh : BVH P.Bounds) {a b : Nat} (hab : a < b) :
    ∀ k, List.countP (isPairC a b)
        ((loopStateK P dt ⟨bodies, bvh, [], []⟩ k).tr) =
      if b < k then
        (dynCandsAt P
          (preDynSt P dt (loopStateK P dt ⟨bodies, bvh, [], []⟩ b) b) b).count a
      else 0 := by
  intro k
  induction k with
  | zero => simp [loopStateK]
  | succ n ih =>
    rw [loopStateK_succ, stepIter_tr, List.countP_append, ih,
      countP_block P dt _ n hab]
    by_cases hnb : n = b
    · subst hnb
      simp [lt_irrefl, Nat.lt_succ_self]
    · rw [if_neg hnb]
      by_cases hbn : b < n
      · simp [hbn, Nat.lt_succ_of_lt hbn]
      · have h2 : ¬ b < n + 1 := by omega
        simp [hbn, h2]

/-- C4: in one full step, dynamic-vs-dynamic generation for driver `i` only
runs against candidates with identity strictly less than `i` (hence never for
the first body), and each unordered pair of identities has its manifold
registered at most once — exactly once iff the pair broad-phase-overlaps at
the driver's query. -/
theorem step_dedupes_pairs (P : Phys) (dt : P.Dt) (bodies : List (P.Body × Nat))
    (bvh : BVH P.Bounds) (hwf : WFh (bodies.map Prod.snd) bvh) :
    (∀ i j, Ev.dynGen i j ∈ stepTrace P dt bodies bvh → j < i ∧ 0 < i) ∧
    (∀ a b, a < b → countPair (stepTrace P dt bodies bvh) a b ≤ 1) ∧
    (∀ a b, a < b → b < bodies.length →
      (countPair (stepTrace P dt bodies bvh) a b = 1 ↔
        overlapAtDriver P dt bodies bvh a b = true)) := by
  have hwf0 : WFls P (⟨bodies, bvh, [], []⟩ : LoopSt P) := hwf
  have hsplit : stepTrace P dt bodies bvh =
      (loopStateK P dt ⟨bodies, bvh, [], []⟩ bodies.length).tr ++ [Ev.solve 20] := rfl
  have hcount : ∀ a b, a < b → countPair (stepTrace P dt bodies bvh) a b =
      if b < bodies.length then
        (dynCandsAt P
          (preDynSt P dt (loopStateK P dt ⟨bodies, bvh, [], []⟩ b) b) b).count a
      else 0 := by
    intro a b hab
    rw [hsplit]
    unfold countPair
    rw [List.countP_append, countP_loop P dt bodies bvh hab bodies.length]
    have hz : List.countP (isPairC a b) [Ev.solve 20] = 0 := rfl
    rw [hz]
    omega
  have hnodup : ∀ b,
      (dynCandsAt P
        (preDynSt P dt (loopStateK P dt ⟨bodies, bvh, [], []⟩ b) b) b).Nodup :=
    fun b => dynCandsAt_nodup _ _ _ (preDynSt_wf _ _ _ _ (loop_wf _ _ _ hwf0 b))
  refine ⟨?_, ?_, ?_⟩
  · intro i j h
    rw [hsplit] at h
    rcases List.mem_append.mp h with h | h
    · obtain ⟨hji, _, _⟩ := loop_dynGen_mem P dt bodies bvh bodies.length i j h
      exact ⟨hji, by omega⟩
    · simp at h
  · intro a b hab
    rw [hcount a b hab]
    by_cases hb : b < bodies.length
    · rw [if_pos hb]
      exact List.nodup_iff_count_le_one.mp (hnodup b) a
    · rw [if_neg hb]
      omega
  · intro a b hab hbn
    rw [hcount a b hab, if_pos hbn]
    unfold overlapAtDriver
    rw [← mem_dynCandsAt_iff P _ hab]
    constructor
    · intro h1
      exact List.count_pos_iff.mp (by omega)
    · intro hm
      exact List.count_eq_one_of_mem (hnodup b) hm

/-! A concrete instantiation of the abstract physics primitives, used for
counterexamples and witnesses: bodies are integer positions on a line, bounds
are integer intervals, the fattening margin is 5 (as in world.rs), contact
data is trivial and the solver is the identity. -/

/-- Concrete physics primitives over integer positions. -/
def demoPhys : Phys where
  Body := Int
  Bounds := Int × Int
  Contact := Unit
  CManifold := Unit
  Dt := Int
  integrate := fun b _ => b
  bounds := fun b => (b, b + 1)
  fatten := fun bd => (bd.1 - 5, bd.2 + 5)
  containsB := fun a b => decide (a.1 ≤ b.1) && decide (b.2 ≤ a.2)
  intersects := fun a b => decide (a.1 ≤ b.2) && decide (b.1 ≤ a.2)
  terrainContacts := fun _ => []
  dynContacts := fun _ _ => [()]
  manifoldOfContact := fun _ => ()
  manifoldOfPruned := fun _ => ()
  solveBodies := fun _ _ bs => bs

/-- Concrete timestep. -/
def demoDt : demoPhys.Dt := (1 : Int)

/-- Three bodies: 0 and 1 share position 0 (their bounds overlap), body 2 is
far away at 100. -/
def demoBodies : List (demoPhys.Body × Nat) :=
  [((0 : Int), 0), ((0 : Int), 1), ((100 : Int), 2)]

/-- The BVH as built by three `insert_body` calls for `demoBodies`. -/
def demoBvh : BVH demoPhys.Bounds :=
  ⟨3, [⟨0, ((-5 : Int), (6 : Int)), 0⟩, ⟨1, ((-5 : Int), (6 : Int)), 1⟩,
       ⟨2, ((95 : Int), (106 : Int)), 2⟩]⟩

/-! C5 as stated: all bodies integrated and bounds-refreshed before any
dynamic-vs-dynamic contact generation begins. This fails on the code: the
loop integrates and collides each body in the same pass, so body 1 drives
dynamic generation against body 0 before body 2 is integrated. -/

/-- The literal ordering property claimed of a step trace: every integration
and bounds-refresh event precedes every dynamic-vs-dynamic generation event. -/
def AllIntegratedBeforeDyn (t : List Ev) : Prop :=
  ∀ (k1 k2 a b i : Nat), t[k1]? = some (Ev.dynGen a b) →
    (t[k2]? = some (Ev.integrate i) ∨ t[k2]? = some (Ev.refresh i)) → k2 < k1

set_option maxRecDepth 8000 in
/-- Counterexample to C5 as stated: in the concrete three-body world, the
step trace generates the dynamic pair (1, 0) at position 6, while body 2 is
only integrated at position 8 — so not all bodies are integrated before
dynamic-vs-dynamic contact generation begins. -/
theorem step_not_all_integrated_before_dyn :
    ¬ AllIntegratedBeforeDyn (stepTrace demoPhys demoDt demoBodies demoBvh) := by
  intro h
  have h68 := h 6 8 1 0 2 (by decide) (Or.inl (by decide))
  omega

set_option maxRecDepth 8000 in
/-- Witness for `step_pair_ordering`: in the concrete three-body world the
pair (1, 0) is generated, and both bodies' integrate/refresh/terrain events
precede it in order. -/
theorem step_pair_ordering_witness :
    Ev.dynGen 1 0 ∈ stepTrace demoPhys demoDt demoBodies demoBvh ∧
    [Ev.integrate 0, Ev.refresh 0, Ev.terrainGen 0,
     Ev.integrate 1, Ev.refresh 1, Ev.terrainGen 1,
     Ev.dynGen 1 0].Sublist (stepTrace demoPhys demoDt demoBodies demoBvh) := by
  have h := step_pair_ordering demoPhys demoDt demoBodies demoBvh 1 0 (by decide)
  exact ⟨by decide, h.2⟩

set_option maxRecDepth 8000 in
/-- Witness for `step_dedupes_pairs` at the concrete three-body world: the
overlapping pair 0, 1 is registered exactly once. -/
theorem step_dedupes_pairs_witness :
    countPair (stepTrace demoPhys demoDt demoBodies demoBvh) 0 1 ≤ 1 ∧
    (countPair (stepTrace demoPhys demoDt demoBodies demoBvh) 0 1 = 1 ↔
      overlapAtDriver demoPhys demoDt demoBodies demoBvh 0 1 = true) := by
  have h := step_dedupes_pairs demoPhys demoDt demoBodies demoBvh
    (by unfold WFh; decide)
  exact ⟨h.2.1 0 1 (by decide), h.2.2 0 1 (by decide) (by decide)⟩

/-! C9: the step is a pure function of the simulation state and `dt`. -/

/-- C9: two worlds with identical body and spatial-index state — even with
completely different render-side state (camera, input, the seeded render RNG),
of possibly different types — produce identical body and spatial-index state
when stepped with the same `dt`; the step never touches the render state. -/
theorem step_deterministic (P : Phys) {R1 R2 : Type}
    (w1 : World P R1) (w2 : World P R2) (dt : P.Dt)
    (hb : w1.bodies = w2.bodies) (hv : w1.bvh = w2.bvh) :
    (w1.step dt).bodies = (w2.step dt).bodies ∧
    (w1.step dt).bvh = (w2.step dt).bvh ∧
    (w1.step dt).renderState = w1.renderState := by
  unfold World.step
  rw [hb, hv]
  exact ⟨rfl, rfl, rfl⟩

set_option maxRecDepth 8000 in
/-- Witness for `step_deterministic`: two worlds with the same simulation
state but render states of different types and values step to the same
bodies. -/
theorem step_deterministic_witness :
    ((World.mk (37 : Nat) demoBodies demoBvh : World demoPhys Nat).step demoDt).bodies =
      ((World.mk true demoBodies demoBvh : World demoPhys Bool).step demoDt).bodies :=
  (step_deterministic demoPhys (World.mk 37 demoBodies demoBvh)
    (World.mk true demoBodies demoBvh) demoDt rfl rfl).1

end Mgf
